import Mathlib

/-!
Formal model of the bezel-project-patcher repository.

Go strings are modelled as `List Char`; the ASCII fragment of Go's
`strings.ToLower` / `unicode.IsSpace` is used (the repository only ever
compares ASCII punctuation and letters).  The file-system collaborator
(`FileMangerInterface`) is modelled by the in-memory stub the repository
itself uses in `test/file_manager.go`: a directory is a list of file names,
`FileExists` is exact membership, and `CopyFileWithName` appends the new
name when the source exists.  The wall clock consumed by `writeLogToFile`
is passed in as an explicit `ts : Nat` parameter.
-/

set_option maxRecDepth 20000

abbrev GoStr := List Char

/-- ASCII case of Go `unicode.ToLower`, applied rune-wise by `strings.ToLower`. -/
def lowerChar (c : Char) : Char :=
  if 65 ≤ c.toNat ∧ c.toNat ≤ 90 then Char.ofNat (c.toNat + 32) else c

/-- Go `strings.ToLower`. -/
def goToLower (s : GoStr) : GoStr := s.map lowerChar

/-- ASCII case of Go `unicode.IsSpace`. -/
def isSpaceChar (c : Char) : Bool :=
  c = ' ' || c = '\t' || c = '\n' || c = '\r'

/-- Go `strings.TrimSpace`. -/
def trimSpace (s : GoStr) : GoStr :=
  ((s.dropWhile isSpaceChar).reverse.dropWhile isSpaceChar).reverse

/-- Helper for `strIndex`: index of the first occurrence of `pat`. -/
def strIndexAux (pat : GoStr) : GoStr → Option Nat
  | [] => if pat = [] then some 0 else Option.none
  | c :: rest =>
    if pat.isPrefixOf (c :: rest) then some 0
    else (strIndexAux pat rest).map (fun i => i + 1)

/-- Go `strings.Index(s, pat)` (`Option.none` models the -1 result). -/
def strIndex (s pat : GoStr) : Option Nat := strIndexAux pat s

/-- Go `strings.Contains(s, pat)`. -/
def containsStr (s pat : GoStr) : Bool := (strIndex s pat).isSome

/-- The apostrophe character (U+0027). -/
def apChar : Char := Char.ofNat 39

/-- One step of the tag-stripping loop in `getBaseName`:
`if i := strings.Index(fileName, substr); i > 0 { fileName = fileName[:i] }`. -/
def cutAt (substr : GoStr) (fileName : GoStr) : GoStr :=
  match strIndex fileName substr with
  | some i => if 0 < i then fileName.take i else fileName
  | Option.none => fileName

/-- `getBaseName` from `rom.go`: strips extensions / tags at the markers
`"."`, `"["`, `"("` (in that loop order), then trims and lowercases. -/
def getBaseName (fileName : GoStr) : GoStr :=
  goToLower (trimSpace (cutAt "(".toList (cutAt "[".toList (cutAt ".".toList fileName))))

/-- Fuel-indexed body of Go `strings.Split(s, " - ")`. -/
def splitDashF : Nat → GoStr → List GoStr
  | _, [] => [[]]
  | 0, s => [s]
  | fuel + 1, c :: rest =>
    if (" - ".toList).isPrefixOf (c :: rest) then
      [] :: splitDashF fuel (rest.drop 2)
    else
      match splitDashF fuel rest with
      | [] => [[c]]
      | p :: ps => (c :: p) :: ps

/-- Go `strings.Split(s, " - ")`. -/
def splitDash (s : GoStr) : List GoStr := splitDashF s.length s

/-- Go `strings.Join(parts, " - ")`. -/
def joinDash : List GoStr → GoStr
  | [] => []
  | p :: ps =>
    match ps with
    | [] => p
    | _ :: _ => p ++ " - ".toList ++ joinDash ps

/-- `nameParts[0] += ", the"` on the result of the split. -/
def addCommaThe : List GoStr → List GoStr
  | [] => []
  | p :: ps => (p ++ ", the".toList) :: ps

/-- The corrected name built in the `strings.HasPrefix(name, "the ")` branch of
`getAlternateNames`: move the leading `"the "` to a trailing `", the"` on the
first `" - "`-separated segment. -/
def commaTheForm (name : GoStr) : GoStr :=
  joinDash (addCommaThe (splitDash (name.drop 4)))

/-- The corrected name built in the `strings.Contains(name, ", the")` branch of
`getAlternateNames`: `"the " + name[:i] + name[i+5:]`.  The `Option.getD`
default is unreachable because the branch is guarded by `strings.Contains`. -/
def theFrontForm (name : GoStr) : GoStr :=
  let i := (strIndex name ", the".toList).getD 0
  "the ".toList ++ name.take i ++ name.drop (i + 5)

/-- Go `strings.ReplaceAll(name, "'", "")`. -/
def stripApostrophes (name : GoStr) : GoStr :=
  name.filter (fun c => ! decide (c = apChar))

/-- `containsItem` from `rom.go`. -/
def containsItem (haystack : List GoStr) (needle : GoStr) : Bool :=
  haystack.any (fun i => decide (i = needle))

/-- Accumulator loop of `uniqueItems` from `rom.go`. -/
def uniqueItemsAux (uniqueSlice : List GoStr) : List GoStr → List GoStr
  | [] => uniqueSlice
  | item :: rest =>
    if containsItem uniqueSlice item then uniqueItemsAux uniqueSlice rest
    else uniqueItemsAux (uniqueSlice ++ [item]) rest

/-- `uniqueItems` from `rom.go`. -/
def uniqueItems (slice : List GoStr) : List GoStr := uniqueItemsAux [] slice

/-- Body of `getAlternateNames` from `rom.go`, parameterised by the
recursive call (the source recurses exactly once, with `recursive=false`,
so the recursion is unrolled below in `getAlternateNames`). -/
def altBody (recurse : GoStr → List GoStr) (name0 : GoStr) : List GoStr :=
  let name := goToLower name0
  let alternates :=
    if ("the ".toList).isPrefixOf name || containsStr name ", the".toList then
      let correctedName :=
        if ("the ".toList).isPrefixOf name then commaTheForm name else theFrontForm name
      [name, correctedName] ++ recurse correctedName
    else [name]
  let withAp :=
    if containsStr name [apChar] then alternates ++ [stripApostrophes name] else alternates
  uniqueItems withAp

/-- `getAlternateNames` from `rom.go`.  The one-level recursion of the source
(`recursive` is always passed on as `false`) is unrolled. -/
def getAlternateNames (name : GoStr) (recursive : Bool) : List GoStr :=
  altBody (fun correctedName => if recursive then altBody (fun _ => []) correctedName else []) name

/-- `Rom` from `rom.go`. -/
structure Rom where
  FileName : GoStr
  Name : GoStr
  AlternateNames : List GoStr
deriving DecidableEq

/-- `NewRom` from `rom.go`. -/
def NewRom (fileName : GoStr) : Rom :=
  let baseName := getBaseName fileName
  { FileName := fileName, Name := baseName, AlternateNames := getAlternateNames baseName true }

/-- Index of the last `'.'` in a name (`filepath.Ext` support; the names here
contain no path separators). -/
def lastDotIdx : GoStr → Option Nat
  | [] => Option.none
  | c :: rest =>
    match lastDotIdx rest with
    | some i => some (i + 1)
    | Option.none => if c = '.' then some 0 else Option.none

/-- Go `filepath.Ext`. -/
def goExt (f : GoStr) : GoStr :=
  match lastDotIdx f with
  | some i => f.drop i
  | Option.none => []

/-- Go `strings.TrimSuffix`. -/
def trimSuffix (s suf : GoStr) : GoStr :=
  if suf.isSuffixOf s then s.take (s.length - suf.length) else s

/-- `Rom.ConfigName` from `rom.go`. -/
def Rom.ConfigName (r : Rom) : GoStr :=
  trimSuffix r.FileName (goExt r.FileName) ++ ".cfg".toList

/-- `matchType` from `patcher.go`. -/
inductive MatchT where
  | exact
  | alternate
  | fuzzy
  | none
deriving DecidableEq

/-- `match` from `patcher.go` (`nil` pointers become `Option.none`). -/
structure MatchR where
  configFile : Option Rom
  rom : Option Rom
  matchType : MatchT
  isExisting : Bool
deriving DecidableEq

/-- `shouldInclude` from `patcher.go`. -/
def shouldInclude (matchType matchFlag : MatchT) : Bool :=
  if matchType = MatchT.none then false
  else
    match matchFlag with
    | MatchT.exact => decide (matchType = MatchT.exact)
    | MatchT.alternate => decide (matchType = MatchT.exact) || decide (matchType = MatchT.alternate)
    | MatchT.fuzzy => true
    | MatchT.none => false

/-- The inner loop body of `matchRomSets` for one config file and one ROM:
exact match first, then alternate names, then the fuzzy cross-product; the
first rule that fires appends one match and `continue matchLoop` moves on
to the next ROM. -/
def pairMatch (configFile rom : Rom) : Option MatchR :=
  if configFile.Name = rom.Name then
    some { configFile := some configFile, rom := some rom, matchType := MatchT.exact,
           isExisting := decide (goToLower configFile.FileName = goToLower rom.ConfigName) }
  else if configFile.Name ∈ rom.AlternateNames then
    some { configFile := some configFile, rom := some rom, matchType := MatchT.alternate,
           isExisting := false }
  else if ∃ a ∈ rom.AlternateNames, a ∈ configFile.AlternateNames then
    some { configFile := some configFile, rom := some rom, matchType := MatchT.fuzzy,
           isExisting := false }
  else Option.none

/-- The positive part of `matchRomSets`: the double loop over config files
and ROMs, one record per pair at the first tier that fires. -/
def positivesOf (configFiles romSet : List Rom) : List MatchR :=
  configFiles.flatMap (fun configFile =>
    romSet.filterMap (fun rom => pairMatch configFile rom))

/-- The `none` record appended for a ROM with no positive match. -/
def romNoneRecord (rom : Rom) : MatchR :=
  { configFile := Option.none, rom := some rom, matchType := MatchT.none, isExisting := false }

/-- The `none` record appended for a config file with no positive match. -/
def configNoneRecord (configFile : Rom) : MatchR :=
  { configFile := some configFile, rom := Option.none, matchType := MatchT.none, isExisting := false }

/-- `matchRomSets` from `patcher.go`: the double loop over config files and
ROMs, then a `none` record for every unmatched ROM, then a `none` record for
every unmatched config file. -/
def matchRomSets (configFiles romSet : List Rom) : List MatchR :=
  let positives : List MatchR := positivesOf configFiles romSet
  let withRomNone : List MatchR := positives ++
    ((romSet.filter (fun rom =>
        ! positives.any (fun m =>
          decide (m.rom = some rom) && ! decide (m.matchType = MatchT.none)))).map romNoneRecord)
  withRomNone ++
    ((configFiles.filter (fun configFile =>
        ! withRomNone.any (fun m =>
          decide (m.configFile = some configFile) && ! decide (m.matchType = MatchT.none)))).map
      configNoneRecord)

/-- `FileExists` of the in-memory file manager stub. -/
def fileExistsStub (dir : List GoStr) (name : GoStr) : Bool :=
  dir.any (fun f => decide (f = name))

/-- `CopyFileWithName` of the in-memory file manager stub: appends the new
name when the source exists, otherwise errors (the error is swallowed by
`PatchDirectory`). -/
def copyFileStub (dir : List GoStr) (src tgt : GoStr) : List GoStr :=
  if fileExistsStub dir src then dir ++ [tgt] else dir

/-- Result of the copy loop of `PatchDirectory`: final config-directory
contents, the copy requests issued to the collaborator (in order), and the
match list after the in-place `isExisting` mutations. -/
structure RunOut where
  dir : List GoStr
  reqs : List (GoStr × GoStr)
  ms : List MatchR
deriving DecidableEq

/-- The copy loop of `PatchDirectory` (`for _, match := range matches`). -/
def runMatches (commit : Bool) (matchFlag : MatchT) : List MatchR → List GoStr → RunOut
  | [], dir => { dir := dir, reqs := [], ms := [] }
  | m :: rest, dir =>
    if m.matchType ≠ MatchT.none ∧ m.isExisting = false ∧ shouldInclude m.matchType matchFlag = true then
      match m.configFile, m.rom with
      | some c, some r =>
        if fileExistsStub dir r.ConfigName then
          let o := runMatches commit matchFlag rest dir
          { dir := o.dir, reqs := o.reqs, ms := { m with isExisting := true } :: o.ms }
        else if commit then
          let o := runMatches commit matchFlag rest (copyFileStub dir c.FileName r.ConfigName)
          { dir := o.dir, reqs := (c.FileName, r.ConfigName) :: o.reqs, ms := m :: o.ms }
        else
          let o := runMatches commit matchFlag rest dir
          { dir := o.dir, reqs := o.reqs, ms := m :: o.ms }
      | _, _ =>
        let o := runMatches commit matchFlag rest dir
        { dir := o.dir, reqs := o.reqs, ms := m :: o.ms }
    else
      let o := runMatches commit matchFlag rest dir
      { dir := o.dir, reqs := o.reqs, ms := m :: o.ms }

/-- The per-tier lists `produceLog` accumulates before assembling the text. -/
structure LogLists where
  romsWithoutConfig : List GoStr
  configWithoutRoms : List GoStr
  createdExact : List GoStr
  createdAlternate : List GoStr
  createdFuzzy : List GoStr
deriving DecidableEq

/-- One `"%s -> %s copied from: %s"` line of the log. -/
def matchLine (c r : Rom) : GoStr :=
  r.FileName ++ " -> ".toList ++ r.ConfigName ++ " copied from: ".toList ++ c.FileName

/-- Append a created-file line to the list of its tier. -/
def addCreated (t : MatchT) (line : GoStr) (L : LogLists) : LogLists :=
  match t with
  | MatchT.exact => { L with createdExact := line :: L.createdExact }
  | MatchT.alternate => { L with createdAlternate := line :: L.createdAlternate }
  | MatchT.fuzzy => { L with createdFuzzy := line :: L.createdFuzzy }
  | MatchT.none => L

/-- The match-scanning loop of `produceLog`. -/
def collectLists : List MatchR → LogLists
  | [] => { romsWithoutConfig := [], configWithoutRoms := [],
            createdExact := [], createdAlternate := [], createdFuzzy := [] }
  | m :: rest =>
    let L := collectLists rest
    if m.matchType = MatchT.none then
      match m.configFile, m.rom with
      | some c, _ => { L with configWithoutRoms := c.FileName :: L.configWithoutRoms }
      | Option.none, some r => { L with romsWithoutConfig := r.FileName :: L.romsWithoutConfig }
      | Option.none, Option.none => L
    else if m.isExisting then L
    else
      match m.configFile, m.rom with
      | some c, some r =>
        if goToLower r.ConfigName ≠ goToLower c.FileName then
          addCreated m.matchType (matchLine c r) L
        else L
      | _, _ => L

/-- Byte-wise string order used by Go `sort.StringSlice`. -/
def lexLe : GoStr → GoStr → Bool
  | [], _ => true
  | _ :: _, [] => false
  | a :: as, b :: bs => if a = b then lexLe as bs else decide (a.toNat < b.toNat)

/-- Insert into a `lexLe`-sorted list. -/
def insertSorted (x : GoStr) : List GoStr → List GoStr
  | [] => [x]
  | y :: ys => if lexLe x y then x :: y :: ys else y :: insertSorted x ys

/-- `sortAlphabetical` from `patcher.go` (Go's unstable sort and this
insertion sort agree: a totally ordered sorted permutation of strings is
unique). -/
def sortAlph : List GoStr → List GoStr
  | [] => []
  | x :: xs => insertSorted x (sortAlph xs)

/-- Go `strings.Join(l, "\n")`. -/
def joinNL : List GoStr → GoStr
  | [] => []
  | p :: ps =>
    match ps with
    | [] => p
    | _ :: _ => p ++ "\n".toList ++ joinNL ps

/-- Decimal digit character. -/
def digitChar (d : Nat) : Char := Char.ofNat (48 + d)

/-- Fuel-indexed decimal rendering (`fmt` `%d` for non-negative values). -/
def natStrAux : Nat → Nat → GoStr
  | 0, _ => []
  | fuel + 1, n => if n < 10 then [digitChar n] else natStrAux fuel (n / 10) ++ [digitChar (n % 10)]

/-- Decimal rendering of a `Nat` (`fmt` `%d`). -/
def natStr (n : Nat) : GoStr := natStrAux (n + 1) n

/-- `skipped` from `patcher.go`. -/
def skippedMark (matchType matchFlag : MatchT) : GoStr :=
  if shouldInclude matchType matchFlag then [] else " [SKIPPED]".toList

/-- `produceLog` from `patcher.go`: the text of the run report. -/
def produceLog (commit : Bool) (romCount configCount : Nat) (romDirPath configPath : GoStr)
    (ms : List MatchR) (matchFlag : MatchT) : GoStr :=
  let L := collectLists ms
  let totalFileCount := L.createdExact.length + L.createdAlternate.length + L.createdFuzzy.length
  let skippedFileCount :=
    (if shouldInclude MatchT.exact matchFlag then 0 else L.createdExact.length) +
    (if shouldInclude MatchT.alternate matchFlag then 0 else L.createdAlternate.length) +
    (if shouldInclude MatchT.fuzzy matchFlag then 0 else L.createdFuzzy.length)
  let createdFilesCount := totalFileCount - skippedFileCount
  (if commit then [] else "[DRY]\n\n".toList) ++
  "Found ".toList ++ natStr configCount ++ " config files in: ".toList ++ configPath ++
  "\nFound ".toList ++ natStr romCount ++ " roms in: ".toList ++ romDirPath ++ "\n\n".toList ++
  "Missing ROMs: ".toList ++ natStr L.configWithoutRoms.length ++
  "\nMissing config: ".toList ++ natStr L.romsWithoutConfig.length ++ "\n\n".toList ++
  "Created ".toList ++ natStr createdFilesCount ++ " new files\n".toList ++
  "Skipped ".toList ++ natStr skippedFileCount ++ " new files\n\n".toList ++
  (if 0 < L.configWithoutRoms.length then
    "CONFIG WITH MISSING ROMS\n".toList ++ joinNL (sortAlph L.configWithoutRoms) ++ "\n\n".toList
   else []) ++
  (if 0 < L.romsWithoutConfig.length then
    "ROMS WITH MISSING CONFIG\n".toList ++ joinNL (sortAlph L.romsWithoutConfig) ++ "\n\n".toList
   else []) ++
  (if 0 < L.createdExact.length then
    "NEW FILES (EXACT MATCHES)".toList ++ skippedMark MatchT.exact matchFlag ++ "\n".toList ++
    joinNL (sortAlph L.createdExact) ++ "\n\n".toList
   else []) ++
  (if 0 < L.createdAlternate.length then
    "NEW FILES (GOOD MATCHES)".toList ++ skippedMark MatchT.alternate matchFlag ++ "\n".toList ++
    joinNL (sortAlph L.createdAlternate) ++ "\n\n".toList
   else []) ++
  (if 0 < L.createdFuzzy.length then
    "NEW FILES (FUZZY MATCHES)".toList ++ skippedMark MatchT.fuzzy matchFlag ++ "\n".toList ++
    joinNL (sortAlph L.createdFuzzy) ++ "\n\n".toList
   else [])

/-- The `patch-log.%d.log` file name written by `writeLogToFile`. -/
def logFileName (ts : Nat) : GoStr :=
  "patch-log.".toList ++ natStr ts ++ ".log".toList

/-- The `matchFlag` selection of `main` (`--exact-only` / `--fuzzy` flags;
the initial value is `patching.MatchTypeAlternate`). -/
def selectMatchFlag (exactOnly fuzzyMatching : Bool) : MatchT :=
  if exactOnly then MatchT.exact
  else if fuzzyMatching then MatchT.fuzzy
  else MatchT.alternate

/-- Observable outcome of one `PatchDirectory` run. -/
structure PatchResult where
  matches0 : List MatchR
  finalMatches : List MatchR
  finalConfigDir : List GoStr
  copyRequests : List (GoStr × GoStr)
  fileWrites : List (GoStr × GoStr)
  logText : GoStr
deriving DecidableEq

/-- `PatchDirectory` from `patcher.go`, on the two directory listings.
`fileWrites` lists every file-creating call: the performed copies (into the
config directory) and the unconditional log-file write. -/
def PatchDirectory (configDirPath romDirPath : GoStr) (configDirFiles romDirFiles : List GoStr)
    (matchFlag : MatchT) (commit : Bool) (ts : Nat) : PatchResult :=
  let filteredConfigDirFiles := configDirFiles.filter (fun file => decide (goExt file = ".cfg".toList))
  let configFiles := filteredConfigDirFiles.map NewRom
  let roms := romDirFiles.map NewRom
  let ms0 := matchRomSets configFiles roms
  let o := runMatches commit matchFlag ms0 configDirFiles
  let log := produceLog commit roms.length configFiles.length romDirPath configDirPath o.ms matchFlag
  { matches0 := ms0, finalMatches := o.ms, finalConfigDir := o.dir,
    copyRequests := o.reqs,
    fileWrites := o.reqs.map (fun p => (configDirPath, p.2)) ++ [(configDirPath, logFileName ts)],
    logText := log }

/-- Modelled from the spec (claim C6 wording): the truncation point is the
first occurrence of `.`, `[` or `(` found past position 0, whichever of the
three markers occurs first in the string. -/
def isMarkerChar (c : Char) : Bool :=
  decide (c = '.') || decide (c = '[') || decide (c = '(')

/-- First index satisfying a predicate. -/
def findIdxA (p : Char → Bool) : GoStr → Option Nat
  | [] => Option.none
  | c :: rest => if p c then some 0 else (findIdxA p rest).map (fun i => i + 1)

/-- Index of the first hit of `p`, or the length when there is none. -/
def findIdxOr (p : Char → Bool) (s : GoStr) : Nat := (findIdxA p s).getD s.length

/-- Modelled from the spec (claim C6 wording): truncate at the first marker
occurrence past position 0, if any. -/
def specTrunc (f : GoStr) : GoStr :=
  match f with
  | [] => []
  | _ :: rest =>
    match findIdxA isMarkerChar rest with
    | some j => f.take (j + 1)
    | Option.none => f

/-- Modelled from the spec (claim C6 wording): the base name per the spec's
description of `getBaseName`. -/
def specBaseName (f : GoStr) : GoStr := goToLower (trimSpace (specTrunc f))

/-! ### Helper lemmas -/

theorem containsItem_iff (l : List GoStr) (x : GoStr) : containsItem l x = true ↔ x ∈ l := by
  simp [containsItem, List.any_eq_true]

theorem mem_uniqueItemsAux (x : GoStr) (l acc : List GoStr) :
    x ∈ uniqueItemsAux acc l ↔ x ∈ acc ∨ x ∈ l := by
  induction l generalizing acc with
  | nil => simp [uniqueItemsAux]
  | cons item rest ih =>
    show x ∈ (if containsItem acc item = true then uniqueItemsAux acc rest
              else uniqueItemsAux (acc ++ [item]) rest) ↔ _
    by_cases h : containsItem acc item = true
    · have hmem : item ∈ acc := (containsItem_iff acc item).1 h
      rw [if_pos h, ih]
      constructor
      · rintro (hx | hx)
        · exact Or.inl hx
        · exact Or.inr (List.mem_cons_of_mem _ hx)
      · rintro (hx | hx)
        · exact Or.inl hx
        · rcases List.mem_cons.1 hx with hx | hx
          · exact Or.inl (hx ▸ hmem)
          · exact Or.inr hx
    · rw [if_neg h, ih]
      simp only [List.mem_append, List.mem_singleton, List.mem_cons]
      tauto

theorem mem_uniqueItems (x : GoStr) (l : List GoStr) : x ∈ uniqueItems l ↔ x ∈ l := by
  simp [uniqueItems, mem_uniqueItemsAux]

theorem lowerChar_toNat_of_upper (c : Char) (h : 65 ≤ c.toNat ∧ c.toNat ≤ 90) :
    (Char.ofNat (c.toNat + 32)).toNat = c.toNat + 32 := by
  have hv : (c.toNat + 32).isValidChar := by
    left
    have := h.2
    omega
  rw [Char.ofNat, dif_pos hv]
  rfl

theorem lowerChar_idem (c : Char) : lowerChar (lowerChar c) = lowerChar c := by
  by_cases h : 65 ≤ c.toNat ∧ c.toNat ≤ 90
  · have h1 : (Char.ofNat (c.toNat + 32)).toNat = c.toNat + 32 := lowerChar_toNat_of_upper c h
    simp only [lowerChar, if_pos h, h1]
    have h2 : ¬ (65 ≤ c.toNat + 32 ∧ c.toNat + 32 ≤ 90) := by omega
    rw [if_neg]
    intro hcon
    exact h2 (h1 ▸ hcon)
  · simp only [lowerChar, if_neg h]

theorem goToLower_idem (s : GoStr) : goToLower (goToLower s) = goToLower s := by
  unfold goToLower
  rw [List.map_map]
  refine List.map_congr_left (fun c _ => ?_)
  show lowerChar (lowerChar c) = lowerChar c
  exact lowerChar_idem c

theorem goToLower_getBaseName (f : GoStr) : goToLower (getBaseName f) = getBaseName f := by
  simp [getBaseName, goToLower_idem]

theorem altBody_shape (recurse : GoStr → List GoStr) (name0 : GoStr) :
    ∃ t, altBody recurse name0 = uniqueItems (goToLower name0 :: t) := by
  unfold altBody
  dsimp only
  split
  · split
    · exact ⟨_, rfl⟩
    · exact ⟨_, rfl⟩
  · split
    · exact ⟨_, rfl⟩
    · exact ⟨_, rfl⟩

theorem head_mem_altBody (recurse : GoStr → List GoStr) (name0 : GoStr) :
    goToLower name0 ∈ altBody recurse name0 := by
  obtain ⟨t, ht⟩ := altBody_shape recurse name0
  rw [ht, mem_uniqueItems]
  exact List.mem_cons_self _ _

/-! ### Claim C4 -/

/-- Claim C4 as frozen: with neither tier-restriction flag supplied, the match
flag passed to `PatchDirectory` would be `MatchTypeFuzzy`, making all three
tiers eligible.  This is false: the code initialises the flag to
`MatchTypeAlternate`. -/
theorem c4_counterexample :
    ¬ (selectMatchFlag false false = MatchT.fuzzy ∧
       shouldInclude MatchT.fuzzy (selectMatchFlag false false) = true) := by
  decide

/-- Claim C4 (corrected): when neither `--exact-only` nor `--fuzzy` is
supplied, `main` passes `MatchTypeAlternate`, so exact and alternate matches
are eligible for copying and fuzzy matches are not. -/
theorem c4_default_flag_alternate :
    selectMatchFlag false false = MatchT.alternate ∧
    shouldInclude MatchT.exact (selectMatchFlag false false) = true ∧
    shouldInclude MatchT.alternate (selectMatchFlag false false) = true ∧
    shouldInclude MatchT.fuzzy (selectMatchFlag false false) = false := by
  decide

/-! ### Claim C5 -/

/-- Claim C5: for every filename, the base name of the identity record built
by `NewRom` is a member of its alternate-names list. -/
theorem c5_name_mem_alternateNames (f : GoStr) :
    (NewRom f).Name ∈ (NewRom f).AlternateNames := by
  show getBaseName f ∈ getAlternateNames (getBaseName f) true
  unfold getAlternateNames
  have h := head_mem_altBody
    (fun correctedName => if true then altBody (fun _ => []) correctedName else []) (getBaseName f)
  rwa [goToLower_getBaseName] at h

/-! ### Claim C1 -/

theorem matchRomSets_shape (configFiles romSet : List Rom) :
    ∃ (nr nc : List Rom), matchRomSets configFiles romSet =
      positivesOf configFiles romSet ++ nr.map romNoneRecord ++ nc.map configNoneRecord := by
  refine ⟨romSet.filter (fun rom =>
      ! (positivesOf configFiles romSet).any (fun m =>
        decide (m.rom = some rom) && ! decide (m.matchType = MatchT.none))),
    configFiles.filter (fun configFile =>
      ! (positivesOf configFiles romSet ++
          ((romSet.filter (fun rom =>
            ! (positivesOf configFiles romSet).any (fun m =>
              decide (m.rom = some rom) && ! decide (m.matchType = MatchT.none)))).map
            romNoneRecord)).any (fun m =>
        decide (m.configFile = some configFile) && ! decide (m.matchType = MatchT.none))), ?_⟩
  unfold matchRomSets
  rw [List.append_assoc]

theorem pairMatch_fields (c r : Rom) (m : MatchR) (h : pairMatch c r = some m) :
    m.configFile = some c ∧ m.rom = some r ∧ m.matchType ≠ MatchT.none := by
  unfold pairMatch at h
  split at h
  · cases h
    exact ⟨rfl, rfl, by simp⟩
  · split at h
    · cases h
      exact ⟨rfl, rfl, by simp⟩
    · split at h
      · cases h
        exact ⟨rfl, rfl, by simp⟩
      · cases h

theorem pairMatch_tier (c r : Rom) (m : MatchR) (h : pairMatch c r = some m) :
    (m.matchType = MatchT.exact ↔ c.Name = r.Name) ∧
    (m.matchType = MatchT.alternate ↔ (¬ c.Name = r.Name ∧ c.Name ∈ r.AlternateNames)) ∧
    (m.matchType = MatchT.fuzzy ↔ (¬ c.Name = r.Name ∧ c.Name ∉ r.AlternateNames ∧
       ∃ a ∈ r.AlternateNames, a ∈ c.AlternateNames)) := by
  unfold pairMatch at h
  split at h
  next hc =>
    cases h
    refine ⟨by simp [hc], ?_, ?_⟩ <;> simp_all
  · split at h
    next hc hm =>
      cases h
      refine ⟨by simp_all, by simp_all, by simp_all⟩
    · split at h
      next hc hm hf =>
        cases h
        refine ⟨by simp_all, by simp_all, by simp_all⟩
      · cases h

theorem mem_positivesOf (configFiles romSet : List Rom) (m : MatchR) :
    m ∈ positivesOf configFiles romSet ↔
      ∃ c ∈ configFiles, ∃ r ∈ romSet, pairMatch c r = some m := by
  simp [positivesOf, List.mem_flatMap, List.mem_filterMap]

theorem block_filter_nil (roms : List Rom) (c c2 r : Rom) (h : r ∉ roms) :
    (roms.filterMap (pairMatch c)).filter (fun m =>
      decide (m.configFile = some c2) && decide (m.rom = some r)) = [] := by
  rw [List.filter_eq_nil_iff]
  intro m hm
  rcases List.mem_filterMap.1 hm with ⟨r2, hr2, hpm⟩
  have hf := pairMatch_fields c r2 m hpm
  have : r2 ≠ r := fun he => h (he ▸ hr2)
  simp [hf.2.1, this]

theorem block_filter_le_one (roms : List Rom) (hr : roms.Nodup) (c c2 r : Rom) :
    ((roms.filterMap (pairMatch c)).filter (fun m =>
      decide (m.configFile = some c2) && decide (m.rom = some r))).length ≤ 1 := by
  induction roms with
  | nil => simp
  | cons r0 rest ih =>
    have hr0 : r0 ∉ rest := (List.nodup_cons.1 hr).1
    have hrest : rest.Nodup := (List.nodup_cons.1 hr).2
    by_cases he : r0 = r
    · subst he
      have hnil := block_filter_nil rest c c2 r0 hr0
      cases hpm : pairMatch c r0 with
      | none =>
        simp only [List.filterMap_cons, hpm]
        rw [hnil]
        simp
      | some m =>
        simp only [List.filterMap_cons, hpm, List.filter_cons]
        split
        · rw [hnil]
          simp
        · rw [hnil]
          simp
    · cases hpm : pairMatch c r0 with
      | none => simpa [List.filterMap_cons, hpm] using ih hrest
      | some m =>
        have hf := pairMatch_fields c r0 m hpm
        have hne : ¬ (m.rom = some r) := by
          rw [hf.2.1]
          simp [he]
        simp only [List.filterMap_cons, hpm, List.filter_cons]
        rw [if_neg (by simp [hne])]
        exact ih hrest

theorem positives_filter_nil (configFiles roms : List Rom) (c r : Rom) (h : c ∉ configFiles) :
    (positivesOf configFiles roms).filter (fun m =>
      decide (m.configFile = some c) && decide (m.rom = some r)) = [] := by
  rw [List.filter_eq_nil_iff]
  intro m hm
  rcases (mem_positivesOf configFiles roms m).1 hm with ⟨c2, hc2, r2, hr2, hpm⟩
  have hf := pairMatch_fields c2 r2 m hpm
  have : c2 ≠ c := fun he => h (he ▸ hc2)
  simp [hf.1, this]

theorem positives_filter_le_one (configFiles roms : List Rom)
    (hc : configFiles.Nodup) (hr : roms.Nodup) (c r : Rom) :
    ((positivesOf configFiles roms).filter (fun m =>
      decide (m.configFile = some c) && decide (m.rom = some r))).length ≤ 1 := by
  induction configFiles with
  | nil => simp [positivesOf]
  | cons c0 rest ih =>
    have hc0 : c0 ∉ rest := (List.nodup_cons.1 hc).1
    have hcrest : rest.Nodup := (List.nodup_cons.1 hc).2
    have hsplit : positivesOf (c0 :: rest) roms =
        roms.filterMap (pairMatch c0) ++ positivesOf rest roms := by
      simp [positivesOf]
    rw [hsplit, List.filter_append, List.length_append]
    by_cases he : c0 = c
    · subst he
      have hnil := positives_filter_nil rest roms c0 r hc0
      rw [hnil]
      simpa using block_filter_le_one roms hr c0 c0 r
    · have hnil : (roms.filterMap (pairMatch c0)).filter (fun m =>
          decide (m.configFile = some c) && decide (m.rom = some r)) = [] := by
        rw [List.filter_eq_nil_iff]
        intro m hm
        rcases List.mem_filterMap.1 hm with ⟨r2, hr2, hpm⟩
        have hf := pairMatch_fields c0 r2 m hpm
        simp [hf.1, he]
      rw [hnil]
      simpa using ih hcrest

/-- Claim C1 as frozen: at most one match would be recorded per configuration
identity against the whole entity collection.  This is false: `continue
matchLoop` advances the ROM loop, so one config file records one match per
matching ROM. -/
theorem c1_counterexample :
    ¬ (∀ (configFiles romSet : List Rom) (c : Rom),
        ((matchRomSets configFiles romSet).filter (fun m =>
          decide (m.configFile = some c) && ! decide (m.matchType = MatchT.none))).length ≤ 1) := by
  intro h
  have h2 := h [NewRom "a.cfg".toList] [NewRom "a.n64".toList, NewRom "a.v64".toList]
    (NewRom "a.cfg".toList)
  exact absurd h2 (by decide)

/-- Claim C1 (corrected): the per-tier precedence is per configuration/entity
pair, not per configuration identity.  For duplicate-free directory listings,
at most one match is recorded for each (config, ROM) pair, and its tier is the
first of exact, alternate, fuzzy that applies to the pair; the algorithm then
proceeds to the next entity, so one configuration identity may record one
match per matching entity. -/
theorem c1_per_pair_precedence (configFiles romSet : List Rom)
    (hc : configFiles.Nodup) (hr : romSet.Nodup) (c r : Rom) :
    ((matchRomSets configFiles romSet).filter (fun m =>
        decide (m.configFile = some c) && decide (m.rom = some r))).length ≤ 1 ∧
    (∀ m ∈ matchRomSets configFiles romSet, m.configFile = some c → m.rom = some r →
      ((m.matchType = MatchT.exact ↔ c.Name = r.Name) ∧
       (m.matchType = MatchT.alternate ↔ (¬ c.Name = r.Name ∧ c.Name ∈ r.AlternateNames)) ∧
       (m.matchType = MatchT.fuzzy ↔ (¬ c.Name = r.Name ∧ c.Name ∉ r.AlternateNames ∧
          ∃ a ∈ r.AlternateNames, a ∈ c.AlternateNames)))) := by
  obtain ⟨nr, nc, hshape⟩ := matchRomSets_shape configFiles romSet
  constructor
  · rw [hshape, List.filter_append, List.filter_append, List.length_append, List.length_append]
    have h1 : (nr.map romNoneRecord).filter (fun m =>
        decide (m.configFile = some c) && decide (m.rom = some r)) = [] := by
      rw [List.filter_eq_nil_iff]
      intro m hm
      rcases List.mem_map.1 hm with ⟨x, _, hx⟩
      subst hx
      simp [romNoneRecord]
    have h2 : (nc.map configNoneRecord).filter (fun m =>
        decide (m.configFile = some c) && decide (m.rom = some r)) = [] := by
      rw [List.filter_eq_nil_iff]
      intro m hm
      rcases List.mem_map.1 hm with ⟨x, _, hx⟩
      subst hx
      simp [configNoneRecord]
    rw [h1, h2]
    simpa using positives_filter_le_one configFiles romSet hc hr c r
  · intro m hm hmc hmr
    rw [hshape] at hm
    rcases List.mem_append.1 hm with hm | hm
    · rcases List.mem_append.1 hm with hm | hm
      · rcases (mem_positivesOf configFiles romSet m).1 hm with ⟨c2, _, r2, _, hpm⟩
        have hf := pairMatch_fields c2 r2 m hpm
        have hcc : c2 = c := by
          have := hf.1.symm.trans hmc
          exact Option.some.inj this
        have hrr : r2 = r := by
          have := hf.2.1.symm.trans hmr
          exact Option.some.inj this
        subst hcc
        subst hrr
        exact pairMatch_tier c2 r2 m hpm
      · rcases List.mem_map.1 hm with ⟨x, _, hx⟩
        subst hx
        simp [romNoneRecord] at hmc
    · rcases List.mem_map.1 hm with ⟨x, _, hx⟩
      subst hx
      simp [configNoneRecord] at hmr

/-- Witness for `c1_per_pair_precedence` at a concrete duplicate-free input. -/
theorem c1_per_pair_precedence_witness :
    ((matchRomSets [NewRom "a.cfg".toList] [NewRom "a.n64".toList]).filter (fun m =>
        decide (m.configFile = some (NewRom "a.cfg".toList)) &&
        decide (m.rom = some (NewRom "a.n64".toList)))).length ≤ 1 ∧
    (∀ m ∈ matchRomSets [NewRom "a.cfg".toList] [NewRom "a.n64".toList],
      m.configFile = some (NewRom "a.cfg".toList) → m.rom = some (NewRom "a.n64".toList) →
      ((m.matchType = MatchT.exact ↔ (NewRom "a.cfg".toList).Name = (NewRom "a.n64".toList).Name) ∧
       (m.matchType = MatchT.alternate ↔ (¬ (NewRom "a.cfg".toList).Name = (NewRom "a.n64".toList).Name ∧
          (NewRom "a.cfg".toList).Name ∈ (NewRom "a.n64".toList).AlternateNames)) ∧
       (m.matchType = MatchT.fuzzy ↔ (¬ (NewRom "a.cfg".toList).Name = (NewRom "a.n64".toList).Name ∧
          (NewRom "a.cfg".toList).Name ∉ (NewRom "a.n64".toList).AlternateNames ∧
          ∃ a ∈ (NewRom "a.n64".toList).AlternateNames, a ∈ (NewRom "a.cfg".toList).AlternateNames)))) :=
  c1_per_pair_precedence [NewRom "a.cfg".toList] [NewRom "a.n64".toList]
    (by decide) (by decide) (NewRom "a.cfg".toList) (NewRom "a.n64".toList)

/-! ### Claims C2 and C3 -/

theorem runMatches_dry (matchFlag : MatchT) (ms : List MatchR) (dir : List GoStr) :
    (runMatches false matchFlag ms dir).reqs = [] ∧
    (runMatches false matchFlag ms dir).dir = dir := by
  induction ms generalizing dir with
  | nil => exact ⟨rfl, rfl⟩
  | cons m rest ih =>
    unfold runMatches
    split
    · split
      · split
        · exact ⟨(ih dir).1, (ih dir).2⟩
        · split
          next hcommit => exact absurd hcommit (by simp)
          · exact ⟨(ih dir).1, (ih dir).2⟩
      · exact ⟨(ih dir).1, (ih dir).2⟩
    · exact ⟨(ih dir).1, (ih dir).2⟩

/-- Claim C2 as frozen: a dry run would perform no writes at all — no copy
requests and no file created in either directory.  This is false: the run
report is still written to a log file in the config directory. -/
theorem c2_counterexample :
    ¬ (∀ (configDirPath romDirPath : GoStr) (configDirFiles romDirFiles : List GoStr)
        (matchFlag : MatchT) (ts : Nat),
        (PatchDirectory configDirPath romDirPath configDirFiles romDirFiles matchFlag false ts).copyRequests = [] ∧
        (PatchDirectory configDirPath romDirPath configDirFiles romDirFiles matchFlag false ts).fileWrites = []) := by
  intro h
  have h2 := (h "c".toList "r".toList [] [] MatchT.fuzzy 0).2
  exact absurd h2 (by decide)

/-- Claim C2 (corrected): a dry run issues no copy request and leaves the
config directory contents unchanged, but it still creates exactly one file:
the timestamped run log in the config directory. -/
theorem c2_dry_run_writes_only_log (configDirPath romDirPath : GoStr)
    (configDirFiles romDirFiles : List GoStr) (matchFlag : MatchT) (ts : Nat) :
    (PatchDirectory configDirPath romDirPath configDirFiles romDirFiles matchFlag false ts).copyRequests = [] ∧
    (PatchDirectory configDirPath romDirPath configDirFiles romDirFiles matchFlag false ts).finalConfigDir = configDirFiles ∧
    (PatchDirectory configDirPath romDirPath configDirFiles romDirFiles matchFlag false ts).fileWrites =
      [(configDirPath, logFileName ts)] := by
  have hd := runMatches_dry matchFlag
    (matchRomSets ((configDirFiles.filter (fun file => decide (goExt file = ".cfg".toList))).map NewRom)
      (romDirFiles.map NewRom)) configDirFiles
  refine ⟨hd.1, hd.2, ?_⟩
  show (runMatches false matchFlag _ configDirFiles).reqs.map (fun p => (configDirPath, p.2)) ++
      [(configDirPath, logFileName ts)] = [(configDirPath, logFileName ts)]
  rw [hd.1]
  rfl

/-- Claim C3 as frozen: a dry run issues no copy request and produces a report
identical to the committing run's report.  The no-copy part holds, but the
reports differ: the dry-run report is prefixed with a `[DRY]` marker (and can
also count matches the committing run would have marked existing mid-run). -/
theorem c3_counterexample :
    ¬ (∀ (configDirPath romDirPath : GoStr) (configDirFiles romDirFiles : List GoStr)
        (matchFlag : MatchT) (ts : Nat),
        (PatchDirectory configDirPath romDirPath configDirFiles romDirFiles matchFlag false ts).copyRequests = [] ∧
        (PatchDirectory configDirPath romDirPath configDirFiles romDirFiles matchFlag false ts).logText =
          (PatchDirectory configDirPath romDirPath configDirFiles romDirFiles matchFlag true ts).logText) := by
  intro h
  have h2 := (h "c".toList "r".toList [] [] MatchT.fuzzy 0).2
  exact absurd h2 (by decide)

/-- Claim C3 (corrected): for the same listings and flag, a dry run issues no
copy request, leaves the directory untouched, and computes exactly the same
match set as a committing run; only the report text may differ (the `[DRY]`
header, and matches whose target a committing run creates earlier in the same
run). -/
theorem c3_dry_run_no_copies_same_matches (configDirPath romDirPath : GoStr)
    (configDirFiles romDirFiles : List GoStr) (matchFlag : MatchT) (ts : Nat) :
    (PatchDirectory configDirPath romDirPath configDirFiles romDirFiles matchFlag false ts).copyRequests = [] ∧
    (PatchDirectory configDirPath romDirPath configDirFiles romDirFiles matchFlag false ts).finalConfigDir = configDirFiles ∧
    (PatchDirectory configDirPath romDirPath configDirFiles romDirFiles matchFlag false ts).matches0 =
      (PatchDirectory configDirPath romDirPath configDirFiles romDirFiles matchFlag true ts).matches0 := by
  have hd := runMatches_dry matchFlag
    (matchRomSets ((configDirFiles.filter (fun file => decide (goExt file = ".cfg".toList))).map NewRom)
      (romDirFiles.map NewRom)) configDirFiles
  exact ⟨hd.1, hd.2, rfl⟩

/-! ### Claim C6 -/

theorem strIndexAux_single (c : Char) (s : GoStr) :
    strIndexAux [c] s = findIdxA (fun x => decide (x = c)) s := by
  induction s with
  | nil => simp [strIndexAux, findIdxA]
  | cons x rest ih =>
    by_cases h : x = c
    · subst h
      simp [strIndexAux, findIdxA, List.isPrefixOf]
    · have hp : ([c]).isPrefixOf (x :: rest) = false := by
        simp [List.isPrefixOf]
        exact fun he => absurd he.symm h
      simp [strIndexAux, findIdxA, hp, h, ih]

theorem findIdxA_lt_length (p : Char → Bool) (s : GoStr) (i : Nat)
    (h : findIdxA p s = some i) : i < s.length := by
  induction s generalizing i with
  | nil => simp [findIdxA] at h
  | cons x rest ih =>
    have hcons : findIdxA p (x :: rest) =
        if p x then some 0 else (findIdxA p rest).map (fun i => i + 1) := rfl
    rw [hcons] at h
    by_cases hp : p x = true
    · rw [if_pos hp] at h
      cases h
      simp
    · rw [if_neg (by simp [hp])] at h
      rcases Option.map_eq_some'.1 h with ⟨j, hj, hji⟩
      have := ih j hj
      simp only [List.length_cons]
      omega

theorem findIdxOr_cons_pos (p : Char → Bool) (x : Char) (rest : GoStr) (h : p x = true) :
    findIdxOr p (x :: rest) = 0 := by
  simp [findIdxOr, findIdxA, h]

theorem findIdxOr_cons_neg (p : Char → Bool) (x : Char) (rest : GoStr) (h : p x = false) :
    findIdxOr p (x :: rest) = findIdxOr p rest + 1 := by
  simp only [findIdxOr, findIdxA, h, Bool.false_eq_true, if_false]
  cases hf : findIdxA p rest with
  | none => simp [hf]
  | some j => simp [hf]

theorem findIdxOr_le_length (p : Char → Bool) (s : GoStr) : findIdxOr p s ≤ s.length := by
  cases hf : findIdxA p s with
  | none => simp [findIdxOr, hf]
  | some j =>
    have := findIdxA_lt_length p s j hf
    simp [findIdxOr, hf]
    omega

theorem findIdxOr_take (p : Char → Bool) (s : GoStr) (n : Nat) :
    findIdxOr p (s.take n) = min (findIdxOr p s) n := by
  induction s generalizing n with
  | nil => simp [findIdxOr, findIdxA]
  | cons x rest ih =>
    cases n with
    | zero => simp [findIdxOr, findIdxA]
    | succ k =>
      rw [List.take_succ_cons]
      by_cases hp : p x = true
      · rw [findIdxOr_cons_pos p x _ hp, findIdxOr_cons_pos p x rest hp]
        simp
      · rw [findIdxOr_cons_neg p x _ (by simp [hp]), findIdxOr_cons_neg p x rest (by simp [hp]),
          ih k]
        omega

theorem findIdxOr_or (p q : Char → Bool) (s : GoStr) :
    findIdxOr (fun c => p c || q c) s = min (findIdxOr p s) (findIdxOr q s) := by
  induction s with
  | nil => simp [findIdxOr, findIdxA]
  | cons x rest ih =>
    by_cases hp : p x = true
    · rw [findIdxOr_cons_pos _ x rest (by simp [hp]), findIdxOr_cons_pos p x rest hp]
      simp
    · by_cases hq : q x = true
      · rw [findIdxOr_cons_pos _ x rest (by simp [hp, hq]), findIdxOr_cons_pos q x rest hq]
        simp
      · rw [findIdxOr_cons_neg _ x rest (by simp [hp, hq]), findIdxOr_cons_neg p x rest (by simp [hp]),
          findIdxOr_cons_neg q x rest (by simp [hq]), ih]
        omega

theorem cutAt_single (c : Char) (s : GoStr)
    (h : ∀ x, s.head? = some x → decide (x = c) = false) :
    cutAt [c] s = s.take (findIdxOr (fun x => decide (x = c)) s) := by
  unfold cutAt strIndex
  rw [strIndexAux_single]
  cases hf : findIdxA (fun x => decide (x = c)) s with
  | none => simp [findIdxOr, hf]
  | some i =>
    have hpos : 0 < i := by
      cases s with
      | nil => simp [findIdxA] at hf
      | cons x rest =>
        have hx := h x rfl
        rw [show findIdxA (fun x => decide (x = c)) (x :: rest) =
            (findIdxA (fun x => decide (x = c)) rest).map (fun i => i + 1) by
          simp [findIdxA, hx]] at hf
        rcases Option.map_eq_some'.1 hf with ⟨j, _, hj⟩
        omega
    simp [hpos, findIdxOr, hf]

theorem take_head? (s : GoStr) (n : Nat) (hn : 0 < n) : (s.take n).head? = s.head? := by
  cases s with
  | nil => simp
  | cons x rest =>
    cases n with
    | zero => omega
    | succ k => simp

theorem specTrunc_eq_take (f : GoStr)
    (h : ∀ x, f.head? = some x → isMarkerChar x = false) :
    specTrunc f = f.take (findIdxOr isMarkerChar f) := by
  cases f with
  | nil => simp [specTrunc]
  | cons x rest =>
    have hx := h x rfl
    have hred : specTrunc (x :: rest) =
        (match findIdxA isMarkerChar rest with
          | some j => (x :: rest).take (j + 1)
          | Option.none => x :: rest) := rfl
    rw [hred, findIdxOr_cons_neg isMarkerChar x rest hx]
    cases hf : findIdxA isMarkerChar rest with
    | none =>
      have hlen : findIdxOr isMarkerChar rest = rest.length := by simp [findIdxOr, hf]
      rw [hlen, List.take_succ_cons, List.take_length]
    | some j =>
      have hj : findIdxOr isMarkerChar rest = j := by simp [findIdxOr, hf]
      rw [hj]

/-- Claim C6 as frozen: `getBaseName` would truncate at the first occurrence
of `.`, `[` or `(` past position 0, whichever occurs first.  This is false:
Go `strings.Index` only reports each marker's *first* occurrence, so a marker
sitting at position 0 is never cut, even when it recurs later. -/
theorem c6_counterexample : ¬ (∀ f : GoStr, getBaseName f = specBaseName f) := by
  intro h
  have h2 := h ".a.b".toList
  exact absurd h2 (by decide)

/-- Claim C6 (corrected): `getBaseName` processes the markers `.`, `[`, `(`
in that order, truncating at each marker's first occurrence when it is past
position 0; a marker whose first occurrence is at position 0 never truncates,
even at its later occurrences.  In particular, whenever the filename does not
begin with one of the three markers, the result is exactly the spec's
description: truncation at the earliest marker occurrence in the string,
then trim and lowercase. -/
theorem c6_base_name_truncation (f : GoStr)
    (h : ∀ x, f.head? = some x → isMarkerChar x = false) :
    getBaseName f = specBaseName f := by
  have hsplit : ∀ x, f.head? = some x → ¬x = '.' ∧ ¬x = '[' ∧ ¬x = '(' := by
    intro x hx
    have hm := h x hx
    simp [isMarkerChar] at hm
    exact ⟨hm.1.1, hm.1.2, hm.2⟩
  have hdot : ∀ x, f.head? = some x → decide (x = '.') = false := by
    intro x hx
    simp [(hsplit x hx).1]
  have hbr : ∀ x, f.head? = some x → decide (x = '[') = false := by
    intro x hx
    simp [(hsplit x hx).2.1]
  have hpa : ∀ x, f.head? = some x → decide (x = '(') = false := by
    intro x hx
    simp [(hsplit x hx).2.2]
  have hd1 : cutAt ".".toList f = f.take (findIdxOr (fun x => decide (x = '.')) f) :=
    cutAt_single '.' f hdot
  set d : Nat := findIdxOr (fun x => decide (x = '.')) f with hdDef
  set b : Nat := findIdxOr (fun x => decide (x = '[')) f with hbDef
  set p : Nat := findIdxOr (fun x => decide (x = '(')) f with hpDef
  have hhead1 : ∀ x, (f.take d).head? = some x → decide (x = '[') = false := by
    intro x hx
    cases hdz : d with
    | zero =>
      rw [hdz] at hx
      simp at hx
    | succ k =>
      rw [take_head? f d (by omega)] at hx
      exact hbr x hx
  have hd2 : cutAt "[".toList (f.take d) =
      (f.take d).take (findIdxOr (fun x => decide (x = '[')) (f.take d)) :=
    cutAt_single '[' (f.take d) hhead1
  rw [findIdxOr_take] at hd2
  rw [← hbDef] at hd2
  have hs2 : cutAt "[".toList (f.take d) = f.take (min b d) := by
    rw [hd2, List.take_take]
    congr 1
    omega
  have hhead2 : ∀ x, (f.take (min b d)).head? = some x → decide (x = '(') = false := by
    intro x hx
    cases hbd : min b d with
    | zero =>
      rw [hbd] at hx
      simp at hx
    | succ k =>
      rw [take_head? f (min b d) (by omega)] at hx
      exact hpa x hx
  have hd3 : cutAt "(".toList (f.take (min b d)) =
      (f.take (min b d)).take (findIdxOr (fun x => decide (x = '(')) (f.take (min b d))) :=
    cutAt_single '(' (f.take (min b d)) hhead2
  rw [findIdxOr_take, ← hpDef] at hd3
  have hs3 : cutAt "(".toList (f.take (min b d)) = f.take (min p (min b d)) := by
    rw [hd3, List.take_take]
    congr 1
    omega
  have hmarker : findIdxOr isMarkerChar f = min p (min b d) := by
    have h1 : findIdxOr isMarkerChar f =
        min (findIdxOr (fun c => decide (c = '.') || decide (c = '[')) f) p := by
      rw [hpDef]
      exact findIdxOr_or _ _ f
    rw [h1, findIdxOr_or, ← hdDef, ← hbDef]
    omega
  show goToLower (trimSpace (cutAt "(".toList (cutAt "[".toList (cutAt ".".toList f)))) = _
  rw [hd1, hs2, hs3]
  unfold specBaseName
  rw [specTrunc_eq_take f h, hmarker]

/-- Witness for `c6_base_name_truncation` at a concrete input. -/
theorem c6_base_name_truncation_witness :
    getBaseName "ab(c".toList = specBaseName "ab(c".toList :=
  c6_base_name_truncation "ab(c".toList (by decide)

/-! ### Claim C7 -/

theorem map_self_forall {f : Char → Char} {l : GoStr} (h : List.map f l = l) :
    ∀ c ∈ l, f c = c := by
  induction l with
  | nil => simp
  | cons x xs ih =>
    rw [List.map_cons] at h
    have hx : f x = x := (List.cons.injEq _ _ _ _ ▸ h).1
    have hxs : List.map f xs = xs := (List.cons.injEq _ _ _ _ ▸ h).2
    intro c hc
    rcases List.mem_cons.1 hc with hc | hc
    · exact hc ▸ hx
    · exact ih hxs c hc

theorem goToLower_eq_self_of {s : GoStr} (h : ∀ c ∈ s, lowerChar c = c) :
    goToLower s = s := by
  unfold goToLower
  calc List.map lowerChar s = List.map id s := List.map_congr_left (fun c hc => h c hc)
  _ = s := List.map_id s

theorem mem_splitDashF (fuel : Nat) (s p : GoStr) (hp : p ∈ splitDashF fuel s) :
    ∀ ch ∈ p, ch ∈ s := by
  induction fuel generalizing s p with
  | zero =>
    cases s with
    | nil =>
      simp [splitDashF] at hp
      simp [hp]
    | cons x rest =>
      simp [splitDashF] at hp
      simp [hp]
  | succ fuel ih =>
    cases s with
    | nil =>
      simp [splitDashF] at hp
      simp [hp]
    | cons x rest =>
      have hred : splitDashF (fuel + 1) (x :: rest) =
          (if (" - ".toList).isPrefixOf (x :: rest) then
            [] :: splitDashF fuel (rest.drop 2)
          else
            match splitDashF fuel rest with
            | [] => [[x]]
            | p :: ps => (x :: p) :: ps) := rfl
      rw [hred] at hp
      split at hp
      · rcases List.mem_cons.1 hp with hp | hp
        · simp [hp]
        · intro ch hch
          have := ih (rest.drop 2) p hp ch hch
          exact List.mem_cons_of_mem _ (List.mem_of_mem_drop this)
      · rcases hm : splitDashF fuel rest with _ | ⟨p0, ps⟩
        · rw [hm] at hp
          simp at hp
          intro ch hch
          rw [hp] at hch
          simp at hch
          simp [hch]
        · rw [hm] at hp
          rcases List.mem_cons.1 hp with hp | hp
          · subst hp
            intro ch hch
            rcases List.mem_cons.1 hch with hch | hch
            · simp [hch]
            · have := ih rest p0 (hm ▸ List.mem_cons_self p0 ps) ch hch
              exact List.mem_cons_of_mem _ this
          · intro ch hch
            have := ih rest p (hm ▸ List.mem_cons_of_mem p0 hp) ch hch
            exact List.mem_cons_of_mem _ this

theorem mem_splitDash (s p : GoStr) (hp : p ∈ splitDash s) : ∀ ch ∈ p, ch ∈ s :=
  mem_splitDashF s.length s p hp

theorem mem_addCommaThe (parts : List GoStr) (q : GoStr) (hq : q ∈ addCommaThe parts) :
    ∀ ch ∈ q, (∃ p ∈ parts, ch ∈ p) ∨ ch ∈ ", the".toList := by
  cases parts with
  | nil => simp [addCommaThe] at hq
  | cons p ps =>
    rcases List.mem_cons.1 hq with hq | hq
    · subst hq
      intro ch hch
      rcases List.mem_append.1 hch with hch | hch
      · exact Or.inl ⟨p, List.mem_cons_self p ps, hch⟩
      · exact Or.inr hch
    · intro ch hch
      exact Or.inl ⟨q, List.mem_cons_of_mem p hq, hch⟩

theorem mem_joinDash (parts : List GoStr) :
    ∀ ch ∈ joinDash parts, (∃ p ∈ parts, ch ∈ p) ∨ ch ∈ " - ".toList := by
  induction parts with
  | nil => simp [joinDash]
  | cons p ps ih =>
    cases ps with
    | nil =>
      intro ch hch
      rw [show joinDash [p] = p from rfl] at hch
      exact Or.inl ⟨p, by simp, hch⟩
    | cons q qs =>
      intro ch hch
      rw [show joinDash (p :: q :: qs) = p ++ " - ".toList ++ joinDash (q :: qs) from rfl] at hch
      rcases List.mem_append.1 hch with hch | hch
      · rcases List.mem_append.1 hch with hch | hch
        · exact Or.inl ⟨p, by simp, hch⟩
        · exact Or.inr hch
      · rcases ih ch hch with ⟨r, hr, hchr⟩ | hch
        · exact Or.inl ⟨r, List.mem_cons_of_mem p hr, hchr⟩
        · exact Or.inr hch

theorem mem_commaTheForm (n : GoStr) :
    ∀ ch ∈ commaTheForm n, ch ∈ n ∨ ch ∈ (", the".toList ++ " - ".toList) := by
  intro ch hch
  unfold commaTheForm at hch
  rcases mem_joinDash _ ch hch with ⟨q, hq, hchq⟩ | hch
  · rcases mem_addCommaThe _ q hq ch hchq with ⟨p, hp, hchp⟩ | hch
    · exact Or.inl (List.mem_of_mem_drop (mem_splitDash _ p hp ch hchp))
    · exact Or.inr (List.mem_append.2 (Or.inl hch))
  · exact Or.inr (List.mem_append.2 (Or.inr hch))

theorem goToLower_commaTheForm {n : GoStr} (hlf : goToLower n = n) :
    goToLower (commaTheForm n) = commaTheForm n := by
  have hconst : ∀ x ∈ ((", the".toList ++ " - ".toList) : GoStr), lowerChar x = x := by decide
  apply goToLower_eq_self_of
  intro c hc
  rcases mem_commaTheForm n c hc with hmem | hmem
  · exact map_self_forall hlf c hmem
  · exact hconst c hmem

theorem altBody_shape_the (recurse : GoStr → List GoStr) (n : GoStr)
    (hc : (("the ".toList).isPrefixOf (goToLower n) || containsStr (goToLower n) ", the".toList) = true)
    (hp : ("the ".toList).isPrefixOf (goToLower n) = true) :
    ∃ t, altBody recurse n = uniqueItems (goToLower n :: commaTheForm (goToLower n) :: t) := by
  unfold altBody
  dsimp only
  rw [if_pos hc, if_pos hp]
  split
  · exact ⟨_, rfl⟩
  · exact ⟨_, rfl⟩

theorem corrected_mem_altBody (recurse : GoStr → List GoStr) (n : GoStr)
    (hlf : goToLower n = n) (hp : ("the ".toList).isPrefixOf n = true) :
    commaTheForm n ∈ altBody recurse n := by
  have hplow : ("the ".toList).isPrefixOf (goToLower n) = true := by
    rw [hlf]
    exact hp
  obtain ⟨t, ht⟩ := altBody_shape_the recurse n (by rw [hplow]; simp) hplow
  rw [ht, mem_uniqueItems, hlf]
  simp

/-- Claim C7 as frozen: for every lowercase base name beginning with
`"the "`, the alternate-name set of the name and of its comma-form spelling
would be equal as sets.  This is false when the remainder itself begins with
`"the "`: for `"the the x"` the comma form is `"the x, the"`, whose alternate
set never regenerates `"the the x"`. -/
theorem c7_counterexample :
    ¬ (∀ n : GoStr, goToLower n = n → ("the ".toList).isPrefixOf n = true →
        ∀ x, x ∈ getAlternateNames n true ↔ x ∈ getAlternateNames (commaTheForm n) true) := by
  intro h
  have h2 := h "the the x".toList (by decide) (by decide) "the the x".toList
  exact absurd h2 (by decide)

/-- Claim C7 (corrected): for every lowercase base name beginning with
`"the "`, the two alternate-name sets always intersect: the comma-form
spelling itself is an element of both (full set equality can fail, e.g. for
`"the the x"`). -/
theorem c7_comma_form_in_both (n : GoStr)
    (hlf : goToLower n = n) (hp : ("the ".toList).isPrefixOf n = true) :
    commaTheForm n ∈ getAlternateNames n true ∧
    commaTheForm n ∈ getAlternateNames (commaTheForm n) true := by
  constructor
  · exact corrected_mem_altBody _ n hlf hp
  · have := head_mem_altBody
      (fun correctedName => if true then altBody (fun _ => []) correctedName else [])
      (commaTheForm n)
    rwa [goToLower_commaTheForm hlf] at this

/-- Witness for `c7_comma_form_in_both` at a concrete input. -/
theorem c7_comma_form_in_both_witness :
    commaTheForm "the abc".toList ∈ getAlternateNames "the abc".toList true ∧
    commaTheForm "the abc".toList ∈
      getAlternateNames (commaTheForm "the abc".toList) true :=
  c7_comma_form_in_both "the abc".toList (by decide) (by decide)

/-! ### Claim C8 -/

theorem mem_matchRomSets_both_some (configFiles romSet : List Rom) (m : MatchR) (c r : Rom)
    (hm : m ∈ matchRomSets configFiles romSet)
    (hc : m.configFile = some c) (hr : m.rom = some r) :
    pairMatch c r = some m := by
  obtain ⟨nr, nc, hshape⟩ := matchRomSets_shape configFiles romSet
  rw [hshape] at hm
  rcases List.mem_append.1 hm with hm | hm
  · rcases List.mem_append.1 hm with hm | hm
    · rcases (mem_positivesOf configFiles romSet m).1 hm with ⟨c2, _, r2, _, hpm⟩
      have hf := pairMatch_fields c2 r2 m hpm
      have hcc : c2 = c := Option.some.inj (hf.1.symm.trans hc)
      have hrr : r2 = r := Option.some.inj (hf.2.1.symm.trans hr)
      rw [← hcc, ← hrr]
      exact hpm
    · rcases List.mem_map.1 hm with ⟨x, _, hx⟩
      subst hx
      simp [romNoneRecord] at hc
  · rcases List.mem_map.1 hm with ⟨x, _, hx⟩
    subst hx
    simp [configNoneRecord] at hr

theorem mem_matchRomSets_both_some_mem (configFiles romSet : List Rom) (m : MatchR) (c r : Rom)
    (hm : m ∈ matchRomSets configFiles romSet)
    (hc : m.configFile = some c) (hr : m.rom = some r) :
    c ∈ configFiles ∧ r ∈ romSet ∧ pairMatch c r = some m := by
  obtain ⟨nr, nc, hshape⟩ := matchRomSets_shape configFiles romSet
  rw [hshape] at hm
  rcases List.mem_append.1 hm with hm | hm
  · rcases List.mem_append.1 hm with hm | hm
    · rcases (mem_positivesOf configFiles romSet m).1 hm with ⟨c2, hc2, r2, hr2, hpm⟩
      have hf := pairMatch_fields c2 r2 m hpm
      have hcc : c2 = c := Option.some.inj (hf.1.symm.trans hc)
      have hrr : r2 = r := Option.some.inj (hf.2.1.symm.trans hr)
      rw [hcc] at hc2
      rw [hrr] at hr2
      rw [hcc, hrr] at hpm
      exact ⟨hc2, hr2, hpm⟩
    · rcases List.mem_map.1 hm with ⟨x, _, hx⟩
      subst hx
      simp [romNoneRecord] at hc
  · rcases List.mem_map.1 hm with ⟨x, _, hx⟩
    subst hx
    simp [configNoneRecord] at hr

theorem pairMatch_exact_existing (c r : Rom)
    (hn : c.Name = r.Name) (hci : goToLower c.FileName = goToLower r.ConfigName) :
    pairMatch c r = some { configFile := some c, rom := some r,
                           matchType := MatchT.exact, isExisting := true } := by
  unfold pairMatch
  rw [if_pos hn]
  have : decide (goToLower c.FileName = goToLower r.ConfigName) = true := decide_eq_true hci
  rw [this]

theorem pairMatch_false_not_exact_ci (c r : Rom) (m : MatchR)
    (hpm : pairMatch c r = some m) (hex : m.isExisting = false) :
    ¬ (c.Name = r.Name ∧ goToLower c.FileName = goToLower r.ConfigName) := by
  rintro ⟨hn, hci⟩
  rw [pairMatch_exact_existing c r hn hci] at hpm
  have := Option.some.inj hpm
  rw [← this] at hex
  simp at hex

theorem runMatches_reqs (commit : Bool) (matchFlag : MatchT) (ms : List MatchR) (dir : List GoStr)
    (src tgt : GoStr) (h : (src, tgt) ∈ (runMatches commit matchFlag ms dir).reqs) :
    ∃ m ∈ ms, ∃ c r : Rom, m.configFile = some c ∧ m.rom = some r ∧
      m.isExisting = false ∧ src = c.FileName ∧ tgt = r.ConfigName := by
  induction ms generalizing dir with
  | nil => simp [runMatches] at h
  | cons m rest ih =>
    unfold runMatches at h
    split at h
    next hguard =>
      split at h
      next c r hcf hrm =>
        split at h
        · rcases ih _ h with ⟨m2, hm2, rest2⟩
          exact ⟨m2, List.mem_cons_of_mem _ hm2, rest2⟩
        · split at h
          · rcases List.mem_cons.1 h with h | h
            · have h1 : src = c.FileName := congrArg Prod.fst h
              have h2 : tgt = r.ConfigName := congrArg Prod.snd h
              exact ⟨m, List.mem_cons_self _ _, c, r, hcf, hrm, hguard.2.1, h1, h2⟩
            · rcases ih _ h with ⟨m2, hm2, rest2⟩
              exact ⟨m2, List.mem_cons_of_mem _ hm2, rest2⟩
          · rcases ih _ h with ⟨m2, hm2, rest2⟩
            exact ⟨m2, List.mem_cons_of_mem _ hm2, rest2⟩
      next =>
        rcases ih _ h with ⟨m2, hm2, rest2⟩
        exact ⟨m2, List.mem_cons_of_mem _ hm2, rest2⟩
    next =>
      rcases ih _ h with ⟨m2, hm2, rest2⟩
      exact ⟨m2, List.mem_cons_of_mem _ hm2, rest2⟩

/-- Claim C8 as frozen: a config file whose name equals an entity's computed
target name case-insensitively would always yield a match marked existing and
never a copy to that target.  This is false for non-exact tiers: config
`".A.cfg"` matches ROM `".a.c'fg"` at the alternate tier with
`isExisting = false`, the exact-string existence check misses the
case-differing name, and the copy to `".a.cfg"` is requested. -/
theorem c8_counterexample :
    ¬ (∀ (configDirPath romDirPath : GoStr) (configDirFiles romDirFiles : List GoStr)
        (matchFlag : MatchT) (commit : Bool) (ts : Nat) (c r : Rom),
        c ∈ ((configDirFiles.filter (fun file => decide (goExt file = ".cfg".toList))).map NewRom) →
        r ∈ romDirFiles.map NewRom →
        goToLower c.FileName = goToLower r.ConfigName →
        ((∀ m ∈ (PatchDirectory configDirPath romDirPath configDirFiles romDirFiles matchFlag commit ts).matches0,
            m.configFile = some c → m.rom = some r → m.isExisting = true) ∧
         ∀ p ∈ (PatchDirectory configDirPath romDirPath configDirFiles romDirFiles matchFlag commit ts).copyRequests,
            ¬ p.2 = r.ConfigName)) := by
  intro h
  have h2 := h "c".toList "r".toList [".A.cfg".toList] [['.', 'a', '.', 'c', apChar, 'f', 'g']]
    MatchT.fuzzy true 0 (NewRom ".A.cfg".toList) (NewRom ['.', 'a', '.', 'c', apChar, 'f', 'g'])
    (by decide) (by decide) (by decide)
  exact absurd h2 (by decide)

/-- Claim C8 (corrected): a configuration file whose filename equals an
entity's computed target name case-insensitively *and* whose base name equals
the entity's base name yields an exact-tier match created with
`isExisting = true`; every recorded match between such a pair carries
`isExisting = true`; and every copy request `PatchDirectory` issues
originates from a recorded match between a parsed config identity and a
parsed entity identity with `isExisting = false`, a pair that is therefore
not such an exact case-insensitive self-match.  (For lower tiers the only
guard is the exact-string existence re-check, so a target differing from
every directory entry in case alone can still be copied.) -/
theorem c8_existing_never_copied :
    (∀ c r : Rom, c.Name = r.Name → goToLower c.FileName = goToLower r.ConfigName →
      pairMatch c r = some { configFile := some c, rom := some r,
                             matchType := MatchT.exact, isExisting := true }) ∧
    (∀ (configDirPath romDirPath : GoStr) (configDirFiles romDirFiles : List GoStr)
        (matchFlag : MatchT) (commit : Bool) (ts : Nat),
      (∀ m ∈ (PatchDirectory configDirPath romDirPath configDirFiles romDirFiles matchFlag commit ts).matches0,
        ∀ c r : Rom, m.configFile = some c → m.rom = some r →
        c.Name = r.Name → goToLower c.FileName = goToLower r.ConfigName →
        m.isExisting = true) ∧
      (∀ src tgt : GoStr,
        (src, tgt) ∈ (PatchDirectory configDirPath romDirPath configDirFiles romDirFiles matchFlag commit ts).copyRequests →
        ∃ m ∈ (PatchDirectory configDirPath romDirPath configDirFiles romDirFiles matchFlag commit ts).matches0,
          ∃ c r : Rom,
            c ∈ (configDirFiles.filter (fun file => decide (goExt file = ".cfg".toList))).map NewRom ∧
            r ∈ romDirFiles.map NewRom ∧
            pairMatch c r = some m ∧ m.isExisting = false ∧
            src = c.FileName ∧ tgt = r.ConfigName ∧
            ¬ (c.Name = r.Name ∧ goToLower c.FileName = goToLower r.ConfigName))) := by
  constructor
  · exact pairMatch_exact_existing
  · intro configDirPath romDirPath configDirFiles romDirFiles matchFlag commit ts
    constructor
    · intro m hm c r hcf hrm hn hci
      have hpm := mem_matchRomSets_both_some _ _ m c r hm hcf hrm
      rw [pairMatch_exact_existing c r hn hci] at hpm
      have hme := Option.some.inj hpm
      rw [← hme]
    · intro src tgt hreq
      have hprov := runMatches_reqs commit matchFlag
        (matchRomSets ((configDirFiles.filter (fun file => decide (goExt file = ".cfg".toList))).map NewRom)
          (romDirFiles.map NewRom)) configDirFiles src tgt hreq
      rcases hprov with ⟨m, hm, c, r, hcf, hrm, hex, hsrc, htgt⟩
      obtain ⟨hcmem, hrmem, hpm⟩ :=
        mem_matchRomSets_both_some_mem _ _ m c r hm hcf hrm
      exact ⟨m, hm, c, r, hcmem, hrmem, hpm, hex, hsrc, htgt,
        pairMatch_false_not_exact_ci c r m hpm hex⟩

/-- Witness for `c8_existing_never_copied`: all three components applied at
concrete inputs with every hypothesis discharged.  The second component is
exercised on the directory pair `["a.cfg"]` / `["a.n64"]`, whose recorded
exact match is a case-insensitive self-match; the third on the pair
`["a (U).cfg"]` / `["a.n64"]`, whose run issues the copy request
`("a (U).cfg", "a.cfg")`. -/
theorem c8_existing_never_copied_witness :
    pairMatch (NewRom "A.cfg".toList) (NewRom "a.n64".toList) =
      some { configFile := some (NewRom "A.cfg".toList), rom := some (NewRom "a.n64".toList),
             matchType := MatchT.exact, isExisting := true } ∧
    ({ configFile := some (NewRom "a.cfg".toList), rom := some (NewRom "a.n64".toList),
       matchType := MatchT.exact, isExisting := true } : MatchR).isExisting = true ∧
    (∃ m ∈ (PatchDirectory "c".toList "r".toList ["a (U).cfg".toList] ["a.n64".toList] MatchT.fuzzy true 0).matches0,
      ∃ c r : Rom,
        c ∈ (["a (U).cfg".toList].filter (fun file => decide (goExt file = ".cfg".toList))).map NewRom ∧
        r ∈ ["a.n64".toList].map NewRom ∧
        pairMatch c r = some m ∧ m.isExisting = false ∧
        "a (U).cfg".toList = c.FileName ∧ "a.cfg".toList = r.ConfigName ∧
        ¬ (c.Name = r.Name ∧ goToLower c.FileName = goToLower r.ConfigName)) := by
  refine ⟨?_, ?_, ?_⟩
  · exact c8_existing_never_copied.1 (NewRom "A.cfg".toList) (NewRom "a.n64".toList)
      (by decide) (by decide)
  · exact (c8_existing_never_copied.2 "c".toList "r".toList ["a.cfg".toList] ["a.n64".toList]
      MatchT.fuzzy true 0).1
      { configFile := some (NewRom "a.cfg".toList), rom := some (NewRom "a.n64".toList),
        matchType := MatchT.exact, isExisting := true }
      (by decide) (NewRom "a.cfg".toList) (NewRom "a.n64".toList)
      (by decide) (by decide) (by decide) (by decide)
  · exact (c8_existing_never_copied.2 "c".toList "r".toList ["a (U).cfg".toList] ["a.n64".toList]
      MatchT.fuzzy true 0).2 "a (U).cfg".toList "a.cfg".toList (by decide)

/-! ### Claims C9 and C10 -/

theorem matchRomSets_eq (configFiles romSet : List Rom) :
    matchRomSets configFiles romSet =
      positivesOf configFiles romSet ++
      ((romSet.filter (fun rom => ! (positivesOf configFiles romSet).any (fun m =>
          decide (m.rom = some rom) && ! decide (m.matchType = MatchT.none)))).map romNoneRecord) ++
      ((configFiles.filter (fun configFile =>
          ! (positivesOf configFiles romSet ++
            ((romSet.filter (fun rom => ! (positivesOf configFiles romSet).any (fun m =>
              decide (m.rom = some rom) && ! decide (m.matchType = MatchT.none)))).map romNoneRecord)).any
            (fun m => decide (m.configFile = some configFile) && ! decide (m.matchType = MatchT.none)))).map
        configNoneRecord) := by
  unfold matchRomSets
  rw [List.append_assoc]

theorem matchRomSets_rom_covered (configFiles romSet : List Rom) (r : Rom) (hr : r ∈ romSet) :
    (∃ m ∈ matchRomSets configFiles romSet, m.rom = some r) ∧
    ((∀ m ∈ matchRomSets configFiles romSet, m.rom = some r → m.matchType = MatchT.none) →
      romNoneRecord r ∈ matchRomSets configFiles romSet) := by
  by_cases hb : (positivesOf configFiles romSet).any (fun m =>
      decide (m.rom = some r) && ! decide (m.matchType = MatchT.none)) = true
  · rcases List.any_eq_true.1 hb with ⟨m, hm, hpred⟩
    rw [Bool.and_eq_true] at hpred
    have h1 : m.rom = some r := of_decide_eq_true hpred.1
    have h2 : ¬ m.matchType = MatchT.none := by
      have := hpred.2
      simp at this
      exact this
    have hmm : m ∈ matchRomSets configFiles romSet := by
      rw [matchRomSets_eq]
      exact List.mem_append.2 (Or.inl (List.mem_append.2 (Or.inl hm)))
    refine ⟨⟨m, hmm, h1⟩, ?_⟩
    intro H
    exact absurd (H m hmm h1) h2
  · have hbf : (positivesOf configFiles romSet).any (fun m =>
        decide (m.rom = some r) && ! decide (m.matchType = MatchT.none)) = false :=
      eq_false_of_ne_true hb
    have hfilter : r ∈ romSet.filter (fun rom =>
        ! (positivesOf configFiles romSet).any (fun m =>
          decide (m.rom = some rom) && ! decide (m.matchType = MatchT.none))) := by
      rw [List.mem_filter]
      refine ⟨hr, ?_⟩
      rw [hbf]
      rfl
    have hmem : romNoneRecord r ∈ matchRomSets configFiles romSet := by
      rw [matchRomSets_eq]
      exact List.mem_append.2 (Or.inl (List.mem_append.2 (Or.inr
        (List.mem_map_of_mem romNoneRecord hfilter))))
    exact ⟨⟨romNoneRecord r, hmem, rfl⟩, fun _ => hmem⟩

theorem runMatches_preserves_none (commit : Bool) (matchFlag : MatchT) (ms : List MatchR) :
    ∀ (dir : List GoStr) (m : MatchR), m ∈ ms → m.matchType = MatchT.none →
      m ∈ (runMatches commit matchFlag ms dir).ms := by
  induction ms with
  | nil =>
    intro dir m hm _
    simp at hm
  | cons m0 rest ih =>
    intro dir m hm hnone
    rcases List.mem_cons.1 hm with he | hm2
    · subst he
      unfold runMatches
      rw [if_neg (by simp [hnone])]
      exact List.mem_cons_self _ _
    · unfold runMatches
      split
      · split
        next c r hcf hrm =>
          split
          · exact List.mem_cons_of_mem _ (ih dir m hm2 hnone)
          · split
            · exact List.mem_cons_of_mem _ (ih _ m hm2 hnone)
            · exact List.mem_cons_of_mem _ (ih dir m hm2 hnone)
        next => exact List.mem_cons_of_mem _ (ih dir m hm2 hnone)
      · exact List.mem_cons_of_mem _ (ih dir m hm2 hnone)

theorem runMatches_ms_fields (commit : Bool) (matchFlag : MatchT) (ms : List MatchR) :
    ∀ (dir : List GoStr) (m2 : MatchR), m2 ∈ (runMatches commit matchFlag ms dir).ms →
      ∃ m ∈ ms, m2.configFile = m.configFile ∧ m2.rom = m.rom ∧ m2.matchType = m.matchType := by
  induction ms with
  | nil =>
    intro dir m2 hm2
    simp [runMatches] at hm2
  | cons m0 rest ih =>
    intro dir m2 hm2
    have step : ∀ (x : MatchR) (dir2 : List GoStr),
        m2 ∈ x :: (runMatches commit matchFlag rest dir2).ms →
        (m2 = x ∨ ∃ m ∈ rest, m2.configFile = m.configFile ∧ m2.rom = m.rom ∧
          m2.matchType = m.matchType) := by
      intro x dir2 hx
      rcases List.mem_cons.1 hx with hx | hx
      · exact Or.inl hx
      · exact Or.inr (ih dir2 m2 hx)
    unfold runMatches at hm2
    split at hm2
    · split at hm2
      next c r hcf hrm =>
        split at hm2
        · rcases step _ _ hm2 with he | ⟨m, hm, hf⟩
          · exact ⟨m0, List.mem_cons_self _ _, by rw [he], by rw [he], by rw [he]⟩
          · exact ⟨m, List.mem_cons_of_mem _ hm, hf⟩
        · split at hm2
          · rcases step _ _ hm2 with he | ⟨m, hm, hf⟩
            · exact ⟨m0, List.mem_cons_self _ _, by rw [he], by rw [he], by rw [he]⟩
            · exact ⟨m, List.mem_cons_of_mem _ hm, hf⟩
          · rcases step _ _ hm2 with he | ⟨m, hm, hf⟩
            · exact ⟨m0, List.mem_cons_self _ _, by rw [he], by rw [he], by rw [he]⟩
            · exact ⟨m, List.mem_cons_of_mem _ hm, hf⟩
      next =>
        rcases step _ _ hm2 with he | ⟨m, hm, hf⟩
        · exact ⟨m0, List.mem_cons_self _ _, by rw [he], by rw [he], by rw [he]⟩
        · exact ⟨m, List.mem_cons_of_mem _ hm, hf⟩
    · rcases step _ _ hm2 with he | ⟨m, hm, hf⟩
      · exact ⟨m0, List.mem_cons_self _ _, by rw [he], by rw [he], by rw [he]⟩
      · exact ⟨m, List.mem_cons_of_mem _ hm, hf⟩

theorem addCreated_romsWithout (t : MatchT) (line : GoStr) (L : LogLists) :
    (addCreated t line L).romsWithoutConfig = L.romsWithoutConfig := by
  cases t <;> rfl

theorem addCreated_configWithout (t : MatchT) (line : GoStr) (L : LogLists) :
    (addCreated t line L).configWithoutRoms = L.configWithoutRoms := by
  cases t <;> rfl

theorem collect_romsWithout_mono (ms : List MatchR) (m0 : MatchR) (x : GoStr)
    (hx : x ∈ (collectLists ms).romsWithoutConfig) :
    x ∈ (collectLists (m0 :: ms)).romsWithoutConfig := by
  unfold collectLists
  split
  · split
    · exact hx
    · exact List.mem_cons_of_mem _ hx
    · exact hx
  · split
    · exact hx
    · split
      next c r hcf hrm =>
        split
        · rw [addCreated_romsWithout]
          exact hx
        · exact hx
      next => exact hx

theorem collect_mem_romNone (ms : List MatchR) (r : Rom) :
    romNoneRecord r ∈ ms → r.FileName ∈ (collectLists ms).romsWithoutConfig := by
  induction ms with
  | nil =>
    intro hm
    simp at hm
  | cons m0 rest ih =>
    intro hm
    rcases List.mem_cons.1 hm with he | hm2
    · rw [← he]
      exact List.mem_cons_self _ _
    · exact collect_romsWithout_mono rest m0 _ (ih hm2)

theorem collect_configWithout_mono (ms : List MatchR) (m0 : MatchR) (x : GoStr)
    (hx : x ∈ (collectLists ms).configWithoutRoms) :
    x ∈ (collectLists (m0 :: ms)).configWithoutRoms := by
  unfold collectLists
  split
  · split
    · exact List.mem_cons_of_mem _ hx
    · exact hx
    · exact hx
  · split
    · exact hx
    · split
      next c r hcf hrm =>
        split
        · rw [addCreated_configWithout]
          exact hx
        · exact hx
      next => exact hx

theorem collect_configWithout_src (ms : List MatchR) :
    ∀ x ∈ (collectLists ms).configWithoutRoms,
      ∃ m ∈ ms, ∃ c : Rom, m.configFile = some c ∧ c.FileName = x := by
  induction ms with
  | nil => simp [collectLists]
  | cons m0 rest ih =>
    intro x hx
    have lift : x ∈ (collectLists rest).configWithoutRoms →
        ∃ m ∈ m0 :: rest, ∃ c : Rom, m.configFile = some c ∧ c.FileName = x := by
      intro hx2
      rcases ih x hx2 with ⟨m, hm, c, hcf, hfn⟩
      exact ⟨m, List.mem_cons_of_mem _ hm, c, hcf, hfn⟩
    unfold collectLists at hx
    split at hx
    next htype =>
      split at hx
      next c heq =>
        rcases List.mem_cons.1 hx with he | hx2
        · exact ⟨m0, List.mem_cons_self _ _, c, heq, he.symm⟩
        · exact lift hx2
      next heq1 heq2 => exact lift hx
      next heq1 heq2 => exact lift hx
    next htype =>
      split at hx
      · exact lift hx
      · split at hx
        next c r hcf hrm =>
          split at hx
          · rw [addCreated_configWithout] at hx
            exact lift hx
          · exact lift hx
        next => exact lift hx

theorem matchRomSets_configFile_src (configFiles romSet : List Rom) (m : MatchR)
    (hm : m ∈ matchRomSets configFiles romSet) :
    m.configFile = Option.none ∨ ∃ c ∈ configFiles, m.configFile = some c := by
  rw [matchRomSets_eq] at hm
  rcases List.mem_append.1 hm with hm | hm
  · rcases List.mem_append.1 hm with hm | hm
    · rcases (mem_positivesOf configFiles romSet m).1 hm with ⟨c2, hc2, r2, _, hpm⟩
      exact Or.inr ⟨c2, hc2, (pairMatch_fields c2 r2 m hpm).1⟩
    · rcases List.mem_map.1 hm with ⟨x, _, hx⟩
      subst hx
      exact Or.inl rfl
  · rcases List.mem_map.1 hm with ⟨x, hxmem, hx⟩
    subst hx
    exact Or.inr ⟨x, (List.mem_filter.1 hxmem).1, rfl⟩

/-- Claim C9: every ROM-directory entry (no extension filter) becomes an
entity identity that appears in the match set; an entry with no positive
match receives a `none` record and its filename is reported in the
missing-configuration list of the run report. -/
theorem c9_rom_entries_reported (configDirPath romDirPath : GoStr)
    (configDirFiles romDirFiles : List GoStr) (matchFlag : MatchT) (commit : Bool) (ts : Nat)
    (f : GoStr) (hf : f ∈ romDirFiles) :
    (∃ m ∈ (PatchDirectory configDirPath romDirPath configDirFiles romDirFiles matchFlag commit ts).matches0,
        m.rom = some (NewRom f)) ∧
    ((∀ m ∈ (PatchDirectory configDirPath romDirPath configDirFiles romDirFiles matchFlag commit ts).matches0,
        m.rom = some (NewRom f) → m.matchType = MatchT.none) →
      romNoneRecord (NewRom f) ∈
        (PatchDirectory configDirPath romDirPath configDirFiles romDirFiles matchFlag commit ts).matches0 ∧
      f ∈ (collectLists
        (PatchDirectory configDirPath romDirPath configDirFiles romDirFiles matchFlag commit ts).finalMatches).romsWithoutConfig) := by
  have hr : NewRom f ∈ romDirFiles.map NewRom := List.mem_map_of_mem NewRom hf
  have hcov := matchRomSets_rom_covered
    ((configDirFiles.filter (fun file => decide (goExt file = ".cfg".toList))).map NewRom)
    (romDirFiles.map NewRom) (NewRom f) hr
  refine ⟨hcov.1, fun H => ?_⟩
  have hnone := hcov.2 H
  refine ⟨hnone, ?_⟩
  have hfinal := runMatches_preserves_none commit matchFlag
    (matchRomSets ((configDirFiles.filter (fun file => decide (goExt file = ".cfg".toList))).map NewRom)
      (romDirFiles.map NewRom)) configDirFiles (romNoneRecord (NewRom f)) hnone rfl
  exact collect_mem_romNone _ (NewRom f) hfinal

/-- Witness for `c9_rom_entries_reported` at a concrete input. -/
theorem c9_rom_entries_reported_witness :
    (∃ m ∈ (PatchDirectory "c".toList "r".toList [] ["b.n64".toList] MatchT.fuzzy true 0).matches0,
        m.rom = some (NewRom "b.n64".toList)) ∧
    ((∀ m ∈ (PatchDirectory "c".toList "r".toList [] ["b.n64".toList] MatchT.fuzzy true 0).matches0,
        m.rom = some (NewRom "b.n64".toList) → m.matchType = MatchT.none) →
      romNoneRecord (NewRom "b.n64".toList) ∈
        (PatchDirectory "c".toList "r".toList [] ["b.n64".toList] MatchT.fuzzy true 0).matches0 ∧
      "b.n64".toList ∈ (collectLists
        (PatchDirectory "c".toList "r".toList [] ["b.n64".toList] MatchT.fuzzy true 0).finalMatches).romsWithoutConfig) :=
  c9_rom_entries_reported "c".toList "r".toList [] ["b.n64".toList] MatchT.fuzzy true 0
    "b.n64".toList (by decide)

/-- Claim C10: the config-directory filter compares extensions to the exact
string `".cfg"`, so an entry whose extension differs in case only is not
parsed into a configuration identity, appears in no match, and is absent from
the unmatched-configuration section of the report. -/
theorem c10_cfg_filter_case_sensitive (configDirPath romDirPath : GoStr)
    (configDirFiles romDirFiles : List GoStr) (matchFlag : MatchT) (commit : Bool) (ts : Nat)
    (f : GoStr) (hext : ¬ goExt f = ".cfg".toList) :
    f ∉ configDirFiles.filter (fun file => decide (goExt file = ".cfg".toList)) ∧
    (∀ m ∈ (PatchDirectory configDirPath romDirPath configDirFiles romDirFiles matchFlag commit ts).matches0,
        ¬ m.configFile = some (NewRom f)) ∧
    f ∉ (collectLists
      (PatchDirectory configDirPath romDirPath configDirFiles romDirFiles matchFlag commit ts).finalMatches).configWithoutRoms := by
  have hnotin : f ∉ configDirFiles.filter (fun file => decide (goExt file = ".cfg".toList)) := by
    intro hmem
    exact hext (of_decide_eq_true (List.mem_filter.1 hmem).2)
  refine ⟨hnotin, ?_, ?_⟩
  · intro m hm hcf
    rcases matchRomSets_configFile_src _ _ m hm with hn | ⟨c, hcmem, hsome⟩
    · rw [hn] at hcf
      simp at hcf
    · have hce : c = NewRom f := Option.some.inj (hsome.symm.trans hcf)
      rcases List.mem_map.1 hcmem with ⟨g, hg, hgc⟩
      have hgf : g = f := by
        calc g = (NewRom g).FileName := rfl
        _ = c.FileName := by rw [hgc]
        _ = (NewRom f).FileName := by rw [hce]
        _ = f := rfl
      exact hnotin (hgf ▸ hg)
  · intro hmem
    rcases collect_configWithout_src _ f hmem with ⟨m2, hm2, c, hcf2, hfn⟩
    rcases runMatches_ms_fields commit matchFlag _ configDirFiles m2 hm2 with ⟨m, hm, hfcf, _, _⟩
    have hcf : m.configFile = some c := by
      rw [← hfcf]
      exact hcf2
    rcases matchRomSets_configFile_src _ _ m hm with hn | ⟨c2, hc2mem, hsome⟩
    · rw [hn] at hcf
      simp at hcf
    · have hce : c2 = c := Option.some.inj (hsome.symm.trans hcf)
      rcases List.mem_map.1 hc2mem with ⟨g, hg, hgc⟩
      have hgf : g = f := by
        calc g = (NewRom g).FileName := rfl
        _ = c2.FileName := by rw [hgc]
        _ = c.FileName := by rw [hce]
        _ = f := hfn
      exact hnotin (hgf ▸ hg)

/-- Witness for `c10_cfg_filter_case_sensitive` at a concrete input
(config-directory entry `"a.CFG"`, whose extension differs in case only). -/
theorem c10_cfg_filter_case_sensitive_witness :
    "a.CFG".toList ∉ ["a.CFG".toList].filter (fun file => decide (goExt file = ".cfg".toList)) ∧
    (∀ m ∈ (PatchDirectory "c".toList "r".toList ["a.CFG".toList] ["a.n64".toList] MatchT.fuzzy true 0).matches0,
        ¬ m.configFile = some (NewRom "a.CFG".toList)) ∧
    "a.CFG".toList ∉ (collectLists
      (PatchDirectory "c".toList "r".toList ["a.CFG".toList] ["a.n64".toList] MatchT.fuzzy true 0).finalMatches).configWithoutRoms :=
  c10_cfg_filter_case_sensitive "c".toList "r".toList ["a.CFG".toList] ["a.n64".toList]
    MatchT.fuzzy true 0 "a.CFG".toList (by decide)
